import Mathlib

/-!
Verification of the OWLIN OCR preprocessing and segmentation core.

The development shallowly embeds the decision logic of the C++ sources:

* `cpp_preprocessing/segmentation/segmentation.cpp` — the projection-profile
  line segmenter, the contour-based word segmenter, scored segmentation and
  the batch driver (`owlin::segmentation::Segmenter`);
* `cpp_preprocessing/preprocessing/tesseract_preprocessing.cpp` — the
  hybrid (Tesseract-primary / OpenCV-fallback) strategy stages and the
  enhanced pipeline (`owlin::preprocessing::HybridPreprocessor`);
* `cpp_preprocessing/preprocessing/preprocessing.cpp` — `dewarp` and
  `enhanced_preprocess_image`;
* `cpp_preprocessing/postprocessing/postprocessing.cpp` —
  `extract_invoice_fields` (std::regex, ECMAScript grammar).

External vision primitives (OpenCV / Leptonica calls) are modelled as
fields of explicit oracle records (`Vision`, `Hybrid`): they are pure
functions of their input, exactly as the specification's §2 postulates.
Machine images are modelled as a width/height/channel count together with
a pixel function; `cv::Mat::empty()` is `width = 0 ∨ height = 0`.
Fallible C++ code (a call that may raise) returns `Except String Image`.
-/

namespace Owlin

/-- A raster image: `cv::Mat` with `width = cols`, `height = rows`,
`channels`, and `px y x` the pixel value at row `y`, column `x`. -/
structure Image where
  width : Nat
  height : Nat
  channels : Nat
  px : Nat → Nat → Nat

/-- `struct Box { int x, y, w, h; }` from segmentation.h. -/
structure Box where
  x : Nat
  y : Nat
  w : Nat
  h : Nat
deriving DecidableEq, Repr

/-- `struct ScoredBox { Box box; double confidence; }`; the confidence is a
quotient of two machine integers, modelled exactly as a rational. -/
structure ScoredBox where
  box : Box
  confidence : ℚ

/-- Oracle record for the external vision primitives the segmenter and the
dewarp routine call.  Each field is one OpenCV call, a pure function of its
input per §2 of the specification. -/
structure Vision where
  /-- `cv::threshold(img, bin, 0, 255, THRESH_BINARY_INV | THRESH_OTSU)`. -/
  otsuInv : Image → Image
  /-- `cv::findContours(bin, contours, RETR_EXTERNAL, CHAIN_APPROX_SIMPLE)`:
  each contour is a list of `(x, y)` pixel points. -/
  findContoursExt : Image → List (List (Nat × Nat))
  /-- `cv::cvtColor(img, gray, COLOR_BGR2GRAY)`. -/
  bgr2gray : Image → Image
  /-- `resize_image(img)`: `cv::resize` by the default factor 1.5, bicubic. -/
  resize : Image → Image
  /-- `cv::adaptiveThreshold(gray, bin, 255, ADAPTIVE_THRESH_MEAN_C,
  THRESH_BINARY, 31, 10)` — the success behaviour. -/
  adaptiveMean : Image → Image
  /-- `cv::approxPolyDP(contour, quad, 20, true)`. -/
  approxPolyDP : List (Nat × Nat) → List (Nat × Nat)
  /-- The perspective-warp tail of `dewarp` (preprocessing.cpp lines 99-113):
  corner sorting, `getPerspectiveTransform`, `warpPerspective`.  The
  floating-point edge norms make this an external primitive here. -/
  warpQuad : Image → List (Nat × Nat) → Image

/-! ### Segmentation engine (segmentation.cpp) -/

/-- Column indexes of the foreground (nonzero) pixels of row `y`, in
ascending order: what `cv::findNonZero(bin.row(y))` yields for a single
row, flattened to x coordinates. -/
def rowXs (b : Image) (y : Nat) : List Nat :=
  (List.range b.width).filter fun x => b.px y x != 0

/-- `cv::countNonZero(bin.row(y))` — the horizontal projection profile
entry `proj[y]`. -/
def rowFg (b : Image) (y : Nat) : Nat :=
  (rowXs b y).length

/-- Leftmost and rightmost foreground x of a row: in segment_lines,
`nonzero.at<Point>(0).x` and `nonzero.at<Point>(nonzero.total()-1).x`,
or `none` when `findNonZero` returns an empty matrix. -/
def rowSpan (b : Image) (y : Nat) : Option (Nat × Nat) :=
  match (rowXs b y).head?, (rowXs b y).getLast? with
  | some a, some z => some (a, z)
  | _, _ => none

/-- One row of the x-extent accumulation of segment_lines lines 41-51:
fold a row's leftmost/rightmost foreground x into `(x_min, x_max)`. -/
def bandStep (b : Image) (p : Nat × Nat) (yy : Nat) : Nat × Nat :=
  match rowSpan b yy with
  | none => p
  | some az => (min p.1 az.1, max p.2 az.2)

/-- The emission step of segment_lines lines 40-53 for a closed band
`[y0, y1]`: scan the band's rows for the extreme foreground columns
starting from `(x_min, x_max) = (bin.cols, 0)` and push a box only when
`x_max > x_min`. -/
def emitBand (b : Image) (y0 y1 : Nat) : Option Box :=
  let p := (List.range' y0 (y1 + 1 - y0)).foldl (bandStep b) (b.width, 0)
  if p.1 < p.2 then some ⟨p.1, y0, p.2 - p.1 + 1, y1 - y0 + 1⟩ else none

/-- The band filter of segment_lines line 39: a closed band is kept only
when it spans at least `min_line_height = 8` rows, then emitted through
`emitBand`. -/
def emitIfTall (b : Image) (y0 y1 : Nat) : List Box :=
  if 8 ≤ y1 - y0 + 1 then
    match emitBand b y0 y1 with
    | some bx => [bx]
    | none => []
  else []

/-- The row walk of segment_lines lines 31-58: state `inL` is the
`in_line` flag, `y0` the current band start, `acc` the boxes pushed so
far; the row list is walked in order.  A band still open when the rows
run out is dropped, exactly as the C++ loop ends without emitting. -/
def segGo (b : Image) (t : Nat) : List Nat → Bool → Nat → List Box → List Box
  | [], _, _, acc => acc
  | y :: ys, inL, y0, acc =>
    if rowFg b y > t then
      if inL then segGo b t ys true y0 acc
      else segGo b t ys true y acc
    else
      if inL then segGo b t ys false y0 (acc ++ emitIfTall b y0 (y - 1))
      else segGo b t ys false y0 acc

/-- `Segmenter::segment_lines`: per-image usage check, Otsu (inverted)
binarization via the vision oracle, then the projection-profile walk with
threshold `bin.cols / 20`.  The returned pair is (boxes, err_msg). -/
def segment_lines (v : Vision) (img : Image) : List Box × String :=
  if img.width = 0 ∨ img.height = 0 ∨ img.channels ≠ 1 then
    ([], "Input image must be non-empty and grayscale")
  else
    let bin := v.otsuInv img
    (segGo bin (bin.width / 20) (List.range bin.height) false 0 [], "")

/-- `cv::boundingRect` of a contour: componentwise min corner and
inclusive max corner, width/height `max - min + 1`.  The empty contour
cannot arise from `findContours`; it maps to a degenerate box that the
`> 5` noise filter drops. -/
def boundingRect : List (Nat × Nat) → Box
  | [] => ⟨0, 0, 0, 0⟩
  | p :: ps =>
    let mnx := ps.foldl (fun m q => min m q.1) p.1
    let mxx := ps.foldl (fun m q => max m q.1) p.1
    let mny := ps.foldl (fun m q => min m q.2) p.2
    let mxy := ps.foldl (fun m q => max m q.2) p.2
    ⟨mnx, mny, mxx - mnx + 1, mxy - mny + 1⟩

/-- `Segmenter::segment_words`: usage check, Otsu binarization, external
contours, bounding rectangles kept when both sides exceed 5 pixels. -/
def segment_words (v : Vision) (img : Image) : List Box × String :=
  if img.width = 0 ∨ img.height = 0 ∨ img.channels ≠ 1 then
    ([], "Input image must be non-empty and grayscale")
  else
    let bin := v.otsuInv img
    ((v.findContoursExt bin).filterMap fun c =>
      let r := boundingRect c
      if 5 < r.w ∧ 5 < r.h then some r else none, "")

/-- `img(cv::Rect(bx.x, bx.y, bx.w, bx.h))` — the region of interest. -/
def crop (img : Image) (bx : Box) : Image :=
  ⟨bx.w, bx.h, img.channels, fun y x => img.px (bx.y + y) (bx.x + x)⟩

/-- `cv::countNonZero(bin)` over a whole image. -/
def countNZ (b : Image) : Nat :=
  ((List.range b.height).map (rowFg b)).sum

/-- `Segmenter::segment_with_confidence`: run segment_lines; a per-image
error is propagated with no scored regions; otherwise each line box is
cropped, re-binarized, and scored `countNonZero(bin) / (bin.rows * bin.cols)`. -/
def segment_with_confidence (v : Vision) (img : Image) : List ScoredBox × String :=
  let r := segment_lines v img
  if r.2 ≠ "" then ([], r.2)
  else
    (r.1.map fun line =>
      let bin := v.otsuInv (crop img line)
      ⟨line, (countNZ bin : ℚ) / ((bin.height * bin.width : Nat) : ℚ)⟩, "")

/-- `Segmenter::segment_batch`: `segment_lines` applied independently at
every index of the input sequence; the parallel loop writes only slot `i`
of each pre-sized output vector, so the result is the per-index map. -/
def segment_batch (v : Vision) (imgs : List Image) : List (List Box) × List String :=
  (imgs.map fun i => (segment_lines v i).1, imgs.map fun i => (segment_lines v i).2)

/-! ### Hybrid preprocessing stages (tesseract_preprocessing.cpp) -/

/-- Condition under which `mat_to_pix` returns `nullptr`: the Mat is empty
or has a channel count other than 1 or 3 (lines 34-63). -/
def matToPixFails (img : Image) : Prop :=
  img.width = 0 ∨ img.height = 0 ∨ (img.channels ≠ 1 ∧ img.channels ≠ 3)

instance (img : Image) : Decidable (matToPixFails img) := by
  unfold matToPixFails; infer_instance

/-- The shared shape of `TesseractPreprocessor::tesseract_*`: convert to a
Pix (returning a clone of the input when that fails), run the Leptonica
processing — an external call that may fail, the `applyTess` oracle —
and on any caught exception return the input unchanged (the
`catch (const std::exception&) return img.clone()` arm). -/
def tess_try (applyTess : Image → Except String Image) (img : Image) : Image :=
  if matToPixFails img then img
  else
    match applyTess img with
    | Except.ok r => r
    | Except.error _ => img

/-- `TesseractPreprocessor::tesseract_adaptive_threshold` (lines 94-116). -/
def tesseract_adaptive_threshold (applyTess : Image → Except String Image)
    (img : Image) : Image :=
  tess_try applyTess img

/-- `TesseractPreprocessor::tesseract_deskew` (lines 149-171). -/
def tesseract_deskew (applyTess : Image → Except String Image) (img : Image) : Image :=
  tess_try applyTess img

/-- `TesseractPreprocessor::tesseract_dewarp` (lines 191-213). -/
def tesseract_dewarp (applyTess : Image → Except String Image) (img : Image) : Image :=
  tess_try applyTess img

/-- `TesseractPreprocessor::tesseract_denoise` (lines 247-269). -/
def tesseract_denoise (applyTess : Image → Except String Image) (img : Image) : Image :=
  tess_try applyTess img

/-- Oracle record for one `HybridPreprocessor` instance: the construction
time availability flag `tesseract_available_`, the Leptonica processing
behaviours of the four primary strategies, the OpenCV behaviours of the
fallbacks, and the vision primitives used by the dewarp fallback. -/
structure Hybrid where
  available : Bool
  tessThresh : Image → Except String Image
  tessDeskew : Image → Except String Image
  tessDewarp : Image → Except String Image
  tessDenoise : Image → Except String Image
  /-- Success behaviour of the fallback
  `cv::adaptiveThreshold(..., ADAPTIVE_THRESH_GAUSSIAN_C, THRESH_BINARY, 31, 10)`. -/
  cvThreshG : Image → Image
  /-- The OpenCV deskew fallback body (lines 489-500): `findNonZero`,
  `minAreaRect`, `warpAffine`; floating-point angle math, so one oracle. -/
  cvDeskew : Image → Except String Image
  /-- The OpenCV denoise fallback body (lines 555-558): `medianBlur` then
  `bilateralFilter`. -/
  cvDenoise : Image → Except String Image
  vision : Vision

/-- The uncaught fallback call of `smart_adaptive_threshold` lines 467-476:
`cv::adaptiveThreshold` asserts `src.type() == CV_8UC1` and raises
`cv::Exception` on any other channel count; on success it produces the
thresholded image `g img`. -/
def cv_adaptiveThreshold (g : Image → Image) (img : Image) : Except String Image :=
  if img.channels ≠ 1 then
    Except.error "OpenCV assertion failed: src.type() == CV_8UC1"
  else Except.ok (g img)

/-- `HybridPreprocessor::smart_adaptive_threshold` (lines 457-477): when
Tesseract is available, the primary runs — and since
`tesseract_adaptive_threshold` catches every `std::exception` internally,
it always returns an image, so the surrounding `try`/`catch` never falls
through; when unavailable, the OpenCV fallback runs with no exception
guard at all. -/
def smart_adaptive_threshold (hp : Hybrid) (img : Image) : Except String Image :=
  if hp.available then
    Except.ok (tesseract_adaptive_threshold hp.tessThresh img)
  else cv_adaptiveThreshold hp.cvThreshG img

/-- `HybridPreprocessor::smart_deskew` (lines 479-501), same structure. -/
def smart_deskew (hp : Hybrid) (img : Image) : Except String Image :=
  if hp.available then
    Except.ok (tesseract_deskew hp.tessDeskew img)
  else hp.cvDeskew img

/-- `HybridPreprocessor::smart_denoise` (lines 545-559), same structure. -/
def smart_denoise (hp : Hybrid) (img : Image) : Except String Image :=
  if hp.available then
    Except.ok (tesseract_denoise hp.tessDenoise img)
  else hp.cvDenoise img

/-! ### Dewarp (preprocessing.cpp lines 82-115, duplicated as the
`smart_dewarp` fallback, tesseract_preprocessing.cpp lines 512-542) -/

/-- One cross product term of the shoelace sum `cv::contourArea` uses. -/
def cross (p q : Nat × Nat) : Int :=
  (p.1 : Int) * (q.2 : Int) - (q.1 : Int) * (p.2 : Int)

/-- Shoelace sum of a closed polygon: consecutive cross terms, closing the
last point back to `first`. -/
def shoelace (first : Nat × Nat) : List (Nat × Nat) → Int
  | [] => 0
  | [q] => cross q first
  | q :: r :: rest => cross q r + shoelace first (r :: rest)

/-- `cv::contourArea(contour)`: half the absolute shoelace sum.  Exact for
integer contour points. -/
def contourArea : List (Nat × Nat) → ℚ
  | [] => 0
  | p :: ps => ((shoelace p (p :: ps)).natAbs : ℚ) / 2

/-- The largest-contour selection loop (preprocessing.cpp lines 93-95):
strictly greater area replaces the running best, so the first contour wins
ties. -/
def largestContour (c : List (Nat × Nat)) (cs : List (List (Nat × Nat))) :
    List (Nat × Nat) :=
  cs.foldl (fun best ci => if contourArea best < contourArea ci then ci else best) c

/-- The `gray` local of `dewarp`: convert only 3-channel inputs. -/
def grayOf (v : Vision) (img : Image) : Image :=
  if img.channels = 3 then v.bgr2gray img else img

/-- `dewarp` (preprocessing.cpp lines 82-115): grayscale if needed, mean
adaptive threshold (which asserts a single-channel source), external
contours; no contour or a polygon approximation with other than 4
vertices returns a clone of the input; otherwise the quadrilateral is
warped to a rectangle. -/
def dewarp (v : Vision) (img : Image) : Except String Image :=
  if (grayOf v img).channels ≠ 1 then
    Except.error "OpenCV assertion failed: src.type() == CV_8UC1"
  else
    match v.findContoursExt (v.adaptiveMean (grayOf v img)) with
    | [] => Except.ok img
    | c :: cs =>
      let quad := v.approxPolyDP (largestContour c cs)
      if quad.length ≠ 4 then Except.ok img
      else Except.ok (v.warpQuad img quad)

/-- `HybridPreprocessor::smart_dewarp` (lines 503-543): primary as the
other stages; the fallback inlines the same code as `dewarp`. -/
def smart_dewarp (hp : Hybrid) (img : Image) : Except String Image :=
  if hp.available then
    Except.ok (tesseract_dewarp hp.tessDewarp img)
  else dewarp hp.vision img

/-- `HybridPreprocessor::enhanced_preprocess_pipeline` (lines 561-577):
the four hybrid stages run in sequence with no exception guard, so a
stage failure propagates. -/
def enhanced_preprocess_pipeline (hp : Hybrid) (img : Image) : Except String Image :=
  (smart_denoise hp img).bind fun r1 =>
    (smart_adaptive_threshold hp r1).bind fun r2 =>
      (smart_deskew hp r2).bind fun r3 =>
        smart_dewarp hp r3

/-- `enhanced_preprocess_image` (preprocessing.cpp lines 195-211):
grayscale only 3-channel inputs, resize (default factor 1.5), then the
hybrid pipeline. -/
def enhanced_preprocess_image (v : Vision) (hp : Hybrid) (img : Image) :
    Except String Image :=
  let gray := if img.channels = 3 then v.bgr2gray img else img
  let resized := v.resize gray
  enhanced_preprocess_pipeline hp resized

/-- Stated from the specification §4.2: the composition of the four hybrid
stage functions in the order Denoise, Threshold, Deskew, Dewarp.  Written
independently of `enhanced_preprocess_pipeline` (left-nested binds) to
compare the pipeline against the spec's stage order. -/
def specStageComposition (hp : Hybrid) (img : Image) : Except String Image :=
  (((smart_denoise hp img).bind (smart_adaptive_threshold hp)).bind
      (smart_deskew hp)).bind (smart_dewarp hp)

/-! ### Field extraction (postprocessing.cpp lines 23-42)

`extract_invoice_fields` runs three `std::regex_search` calls (ECMAScript
grammar).  Each is embedded as a direct matcher with exact leftmost-first
search semantics.  For these three patterns no backtracking can change the
outcome: in `INV\s*\d+` the classes `\s` and `\d` are disjoint, so the
greedy `\s*` is committed; in the date alternation every repetition count
is fixed; in `Total[^\d]*(\d+[.,]\d{2})` shortening the greedy `[^\d]*`
leaves `\d+` on a non-digit and shortening the greedy `\d+` leaves `[.,]`
on a digit, so both are committed to their maximal runs. -/

/-- ECMAScript `\s` for the characters that can occur here. -/
def isWsCh (c : Char) : Bool :=
  c = ' ' || c = '\t' || c = '\n' || c = '\r' || c = '\x0b' || c = '\x0c'

/-- Greedy `\s*`: the maximal whitespace run and the rest. -/
def takeWs : List Char → List Char × List Char
  | [] => ([], [])
  | c :: cs =>
    if isWsCh c then
      let p := takeWs cs
      (c :: p.1, p.2)
    else ([], c :: cs)

/-- Greedy `\d+`/`\d*`: the maximal digit run and the rest. -/
def takeDigits : List Char → List Char × List Char
  | [] => ([], [])
  | c :: cs =>
    if c.isDigit then
      let p := takeDigits cs
      (c :: p.1, p.2)
    else ([], c :: cs)

/-- Match `(INV\s*\d+)` (icase) anchored at the head of `s`, returning the
matched characters (the capture keeps the original case). -/
def matchInvAt : List Char → Option (List Char)
  | c1 :: c2 :: c3 :: rest =>
    if c1.toLower = 'i' ∧ c2.toLower = 'n' ∧ c3.toLower = 'v' then
      let sp := takeWs rest
      let ds := takeDigits sp.2
      if ds.1 = [] then none
      else some (c1 :: c2 :: c3 :: (sp.1 ++ ds.1))
    else none
  | _ => none

/-- The date separator class: a slash or a hyphen. -/
def isSepCh (c : Char) : Bool :=
  c = '/' || c = '-'

/-- Exactly `n` digits anchored at the head, with the rest. -/
def matchNDigits : Nat → List Char → Option (List Char × List Char)
  | 0, s => some ([], s)
  | _ + 1, [] => none
  | n + 1, c :: cs =>
    if c.isDigit then (matchNDigits n cs).map fun p => (c :: p.1, p.2)
    else none

/-- One date alternative: `k1` digits, a separator, `k2` digits, a
separator, `k3` digits, anchored at the head. -/
def matchDateAlt (k1 k2 k3 : Nat) (s : List Char) : Option (List Char) :=
  match matchNDigits k1 s with
  | none => none
  | some (d1, r1) =>
    match r1 with
    | [] => none
    | s1 :: r2 =>
      if isSepCh s1 then
        match matchNDigits k2 r2 with
        | none => none
        | some (d2, r3) =>
          match r3 with
          | [] => none
          | s2 :: r4 =>
            if isSepCh s2 then
              match matchNDigits k3 r4 with
              | none => none
              | some (d3, _) => some (d1 ++ s1 :: (d2 ++ s2 :: d3))
            else none
      else none

/-- Match the date regex (day-month-year or year-month-day, slash or
hyphen separators) anchored at the head: the left alternative is
preferred, as in the ECMAScript grammar. -/
def matchDateAt (s : List Char) : Option (List Char) :=
  match matchDateAlt 2 2 4 s with
  | some r => some r
  | none => matchDateAlt 4 2 2 s

/-- Match `Total[^\d]*(\d+[.,]\d{2})` (icase) anchored at the head,
returning capture group 1 only — exactly what `m.str(1)` stores. -/
def matchTotalAt : List Char → Option (List Char)
  | c1 :: c2 :: c3 :: c4 :: c5 :: rest =>
    if c1.toLower = 't' ∧ c2.toLower = 'o' ∧ c3.toLower = 't' ∧
        c4.toLower = 'a' ∧ c5.toLower = 'l' then
      let r1 := rest.dropWhile fun c => !c.isDigit
      let ds := takeDigits r1
      if ds.1 = [] then none
      else
        match ds.2 with
        | sep :: d1 :: d2 :: _ =>
          if (sep = '.' ∨ sep = ',') ∧ d1.isDigit ∧ d2.isDigit then
            some (ds.1 ++ sep :: d1 :: [d2])
          else none
        | _ => none
    else none
  | _ => none

/-- `std::regex_search`: try the anchored matcher at every start position
left to right and return the first success. -/
def searchFirst (m : List Char → Option (List Char)) : List Char → Option (List Char)
  | [] => none
  | c :: rest =>
    match m (c :: rest) with
    | some r => some r
    | none => searchFirst m rest

/-- The `std::map<std::string, std::string>` result restricted to its
three fixed keys; an absent key is `none`. -/
structure FieldMap where
  invoice_number : Option String
  date : Option String
  total : Option String
deriving DecidableEq, Repr

/-- `extract_invoice_fields`: the three regex searches over the OCR text. -/
def extract_invoice_fields (ocr_text : String) : FieldMap :=
  let s := ocr_text.toList
  { invoice_number := (searchFirst matchInvAt s).map List.asString
    date := (searchFirst matchDateAt s).map List.asString
    total := (searchFirst matchTotalAt s).map List.asString }

/-- The sample OCR text of `test_invoice_field_extraction`
(postprocessing.cpp lines 45-49), the claim's input. -/
def sampleInvoiceText : String :=
  "\n        Invoice Number: INV12345\n        Date: 2023-05-12\n        Total: $1,234.56\n    "

/-! ### Specification-side predicates for the line walk

These state, declaratively, what §4.3 of the specification says about line
detection: the in-line state machine, the 8-row filter, and the tight
horizontal extent. -/

/-- Column `x` holds a foreground pixel somewhere in rows `y0..y1` and is
inside the raster. -/
def BandFgX (b : Image) (y0 y1 x : Nat) : Prop :=
  x < b.width ∧ ∃ y, y0 ≤ y ∧ y ≤ y1 ∧ b.px y x ≠ 0

/-- The box a kept band `[y0, y1]` must produce per the specification:
`xmin`/`xmax` are the least/greatest foreground columns over the band's
rows, the extent must be positive (`xmin < xmax`, i.e. `x_max > x_min`),
and the box is the band rectangle. -/
def BandEmit (b : Image) (y0 y1 : Nat) (bx : Box) : Prop :=
  ∃ xmin xmax,
    BandFgX b y0 y1 xmin ∧ (∀ x, BandFgX b y0 y1 x → xmin ≤ x) ∧
    BandFgX b y0 y1 xmax ∧ (∀ x, BandFgX b y0 y1 x → x ≤ xmax) ∧
    xmin < xmax ∧
    bx = ⟨xmin, y0, xmax - xmin + 1, y1 - y0 + 1⟩

/-- Rows `y0..y1` form one complete in-line band of the walk: every row of
the band exceeds the threshold, the walk enters at `y0` (the image's first
row, or the previous row is at or below the threshold), and it exits at
`y1 + 1`, a row of the image at or below the threshold. -/
def IsLineBand (b : Image) (t y0 y1 : Nat) : Prop :=
  y0 ≤ y1 ∧ y1 + 1 < b.height ∧
  (∀ r, y0 ≤ r → r ≤ y1 → t < rowFg b r) ∧
  rowFg b (y1 + 1) ≤ t ∧
  (y0 = 0 ∨ rowFg b (y0 - 1) ≤ t)

/-- The tail `[ystart, y1]` of a band already open when the walk reaches
row `ystart`, closed by the below-threshold row `y1 + 1`. -/
def OpenTail (b : Image) (t ystart y1 : Nat) : Prop :=
  y1 + 1 < b.height ∧ (∀ r, ystart ≤ r → r ≤ y1 → t < rowFg b r) ∧
  rowFg b (y1 + 1) ≤ t

/-- The Region invariant of §3 of the specification, for a box detected on
`img`. -/
def boxInv (bx : Box) (img : Image) : Prop :=
  0 < bx.w ∧ 0 < bx.h ∧ 0 ≤ bx.x ∧ 0 ≤ bx.y ∧
  bx.x + bx.w ≤ img.width ∧ bx.y + bx.h ≤ img.height

/-! ### Concrete oracle instances and images, used to instantiate the
universally quantified theorems at explicit inputs -/

/-- A vision oracle whose primitives are identities and whose contour
extraction finds nothing: the simplest well-formed instantiation. -/
def vId : Vision :=
  ⟨id, fun _ => [], id, id, id, id, fun i _ => i⟩

/-- A vision oracle that reports one single-point contour and approximates
any polygon to itself (so never to 4 vertices). -/
def vC6 : Vision :=
  ⟨id, fun _ => [[(0, 0)]], id, id, id, fun c => c, fun i _ => i⟩

/-- A primary-strategy oracle that always succeeds with its input. -/
def okStage : Image → Except String Image := fun i => Except.ok i

/-- A hybrid preprocessor whose construction-time probe failed:
`tesseract_available_ = false`. -/
def hpNoTess : Hybrid :=
  ⟨false, okStage, okStage, okStage, okStage, id, okStage, okStage, vId⟩

/-- A hybrid preprocessor with the primary available. -/
def hpAvail : Hybrid :=
  ⟨true, okStage, okStage, okStage, okStage, id, okStage, okStage, vId⟩

/-- A primary-strategy oracle whose Leptonica processing always fails. -/
def failStage : Image → Except String Image := fun _ => Except.error "leptonica failure"

/-- A hybrid preprocessor with the primary available but failing, and a
fallback whose success output (the empty image) is distinguishable from
the identity. -/
def hpFailPrim : Hybrid :=
  ⟨true, failStage, okStage, okStage, okStage, fun _ => ⟨0, 0, 1, fun _ _ => 0⟩,
    okStage, okStage, vId⟩

/-- The empty image, `cv::Mat()` with a nominal single channel. -/
def imgEmpty : Image := ⟨0, 0, 1, fun _ _ => 0⟩

/-- A 1×1 three-channel (color) image. -/
def img3 : Image := ⟨1, 1, 3, fun _ _ => 0⟩

/-- A 1×1 single-channel image. -/
def img1 : Image := ⟨1, 1, 1, fun _ _ => 0⟩

/-- A 2×2 blank (all-background) single-channel image. -/
def blankImg : Image := ⟨2, 2, 1, fun _ _ => 0⟩

/-- A 1-column, 10-row image whose every pixel is ink: every row exceeds
the `cols/20 = 0` projection threshold, so one band opens at row 0 and is
still open at the bottom edge. -/
def imgAllInk : Image := ⟨1, 10, 1, fun _ _ => 1⟩

/-- A 10×30 single-channel image with one ink band: rows 3..14, columns
2..7. -/
def imgBandDemo : Image :=
  ⟨10, 30, 1, fun y x => if 3 ≤ y ∧ y ≤ 14 ∧ 2 ≤ x ∧ x ≤ 7 then 1 else 0⟩

/-- The box the band of `imgBandDemo` should produce. -/
def boxBandDemo : Box := ⟨2, 3, 6, 12⟩

/-! ### Row and fold lemmas -/

theorem mem_rowXs {b : Image} {y x : Nat} :
    x ∈ rowXs b y ↔ x < b.width ∧ b.px y x ≠ 0 := by
  simp [rowXs, List.mem_filter, List.mem_range]

theorem rowXs_pairwise (b : Image) (y : Nat) : (rowXs b y).Pairwise (· < ·) :=
  (List.pairwise_lt_range _).filter _

theorem sorted_head?_le {l : List Nat} (hp : l.Pairwise (· < ·)) {a x : Nat}
    (ha : l.head? = some a) (hx : x ∈ l) : a ≤ x := by
  cases l with
  | nil => simp at ha
  | cons c cs =>
    have hac : a = c := by simpa using ha.symm
    subst hac
    rcases List.mem_cons.mp hx with h | h
    · omega
    · exact le_of_lt (List.rel_of_pairwise_cons hp h)

theorem sorted_le_getLast? {l : List Nat} (hp : l.Pairwise (· < ·)) {z x : Nat}
    (hz : l.getLast? = some z) (hx : x ∈ l) : x ≤ z := by
  induction l with
  | nil => simp at hz
  | cons c cs ih =>
    cases cs with
    | nil =>
      simp [List.getLast?] at hz
      simp at hx
      omega
    | cons d ds =>
      rw [List.getLast?_cons_cons] at hz
      rcases List.mem_cons.mp hx with h | h
      · subst h
        have hzm : z ∈ d :: ds := by
          rcases List.mem_getLast?_eq_getLast (Option.mem_def.mpr hz) with ⟨hne, hzg⟩
          exact hzg ▸ List.getLast_mem hne
        exact le_of_lt (List.rel_of_pairwise_cons hp hzm)
      · exact ih hp.of_cons hz h

theorem head?_mem_self {l : List Nat} {a : Nat} (ha : l.head? = some a) : a ∈ l := by
  cases l with
  | nil => simp at ha
  | cons c cs =>
    have : a = c := by simpa using ha.symm
    simp [this]

theorem getLast?_mem_self {l : List Nat} {z : Nat} (hz : l.getLast? = some z) : z ∈ l := by
  rcases List.mem_getLast?_eq_getLast (Option.mem_def.mpr hz) with ⟨hne, hzg⟩
  exact hzg ▸ List.getLast_mem hne

theorem rowSpan_eq_none {b : Image} {y : Nat} :
    rowSpan b y = none ↔ rowXs b y = [] := by
  unfold rowSpan
  cases h : (rowXs b y) with
  | nil => simp
  | cons c cs =>
    have h2 : (c :: cs).getLast? = some ((c :: cs).getLast (by simp)) :=
      List.getLast?_eq_getLast_of_ne_nil (by simp)
    simp [h2]

theorem rowSpan_some_facts {b : Image} {y a z : Nat} (h : rowSpan b y = some (a, z)) :
    a ∈ rowXs b y ∧ z ∈ rowXs b y ∧ ∀ x ∈ rowXs b y, a ≤ x ∧ x ≤ z := by
  unfold rowSpan at h
  cases h1 : (rowXs b y).head? with
  | none => rw [h1] at h; simp at h
  | some a' =>
    cases h2 : (rowXs b y).getLast? with
    | none => rw [h1, h2] at h; simp at h
    | some z' =>
      rw [h1, h2] at h
      simp at h
      obtain ⟨haa, hzz⟩ := h
      subst haa; subst hzz
      refine ⟨head?_mem_self h1, getLast?_mem_self h2, fun x hx => ?_⟩
      exact ⟨sorted_head?_le (rowXs_pairwise b y) h1 hx,
        sorted_le_getLast? (rowXs_pairwise b y) h2 hx⟩

theorem bandFold_spec (b : Image) (L : List Nat) (m0 M0 : Nat) :
    (∀ y ∈ L, ∀ x ∈ rowXs b y,
        (L.foldl (bandStep b) (m0, M0)).1 ≤ x ∧ x ≤ (L.foldl (bandStep b) (m0, M0)).2)
    ∧ (L.foldl (bandStep b) (m0, M0)).1 ≤ m0 ∧ M0 ≤ (L.foldl (bandStep b) (m0, M0)).2
    ∧ ((L.foldl (bandStep b) (m0, M0)).1 = m0
        ∨ ∃ y ∈ L, (L.foldl (bandStep b) (m0, M0)).1 ∈ rowXs b y)
    ∧ ((L.foldl (bandStep b) (m0, M0)).2 = M0
        ∨ ∃ y ∈ L, (L.foldl (bandStep b) (m0, M0)).2 ∈ rowXs b y) := by
  induction L generalizing m0 M0 with
  | nil => simp
  | cons yy ys ih =>
    rw [List.foldl_cons]
    cases hsp : rowSpan b yy with
    | none =>
      have hxs : rowXs b yy = [] := rowSpan_eq_none.mp hsp
      have hstep : bandStep b (m0, M0) yy = (m0, M0) := by simp [bandStep, hsp]
      rw [hstep]
      obtain ⟨ihb, ih1, ih2, ih3, ih4⟩ := ih m0 M0
      refine ⟨?_, ih1, ih2, ?_, ?_⟩
      · intro y hy x hx
        rcases List.mem_cons.mp hy with h | h
        · subst h; rw [hxs] at hx; simp at hx
        · exact ihb y h x hx
      · rcases ih3 with h | ⟨y, hy, hmem⟩
        · exact Or.inl h
        · exact Or.inr ⟨y, List.mem_cons_of_mem _ hy, hmem⟩
      · rcases ih4 with h | ⟨y, hy, hmem⟩
        · exact Or.inl h
        · exact Or.inr ⟨y, List.mem_cons_of_mem _ hy, hmem⟩
    | some az =>
      obtain ⟨a, z⟩ := az
      obtain ⟨ham, hzm, hbound⟩ := rowSpan_some_facts hsp
      have hstep : bandStep b (m0, M0) yy = (min m0 a, max M0 z) := by
        simp [bandStep, hsp]
      rw [hstep]
      obtain ⟨ihb, ih1, ih2, ih3, ih4⟩ := ih (min m0 a) (max M0 z)
      refine ⟨?_, ?_, ?_, ?_, ?_⟩
      · intro y hy x hx
        rcases List.mem_cons.mp hy with h | h
        · subst h
          have := hbound x hx
          constructor
          · calc (ys.foldl (bandStep b) (min m0 a, max M0 z)).1 ≤ min m0 a := ih1
              _ ≤ a := min_le_right _ _
              _ ≤ x := this.1
          · calc x ≤ z := this.2
              _ ≤ max M0 z := le_max_right _ _
              _ ≤ (ys.foldl (bandStep b) (min m0 a, max M0 z)).2 := ih2
        · exact ihb y h x hx
      · exact le_trans ih1 (min_le_left _ _)
      · exact le_trans (le_max_left _ _) ih2
      · rcases ih3 with h | ⟨y, hy, hmem⟩
        · rcases min_cases m0 a with ⟨he, _⟩ | ⟨he, _⟩
          · exact Or.inl (h.trans he)
          · exact Or.inr ⟨yy, List.mem_cons_self _ _, by rw [h, he]; exact ham⟩
        · exact Or.inr ⟨y, List.mem_cons_of_mem _ hy, hmem⟩
      · rcases ih4 with h | ⟨y, hy, hmem⟩
        · rcases max_cases M0 z with ⟨he, _⟩ | ⟨he, _⟩
          · exact Or.inl (h.trans he)
          · exact Or.inr ⟨yy, List.mem_cons_self _ _, by rw [h, he]; exact hzm⟩
        · exact Or.inr ⟨y, List.mem_cons_of_mem _ hy, hmem⟩

theorem bandFgX_iff_mem {b : Image} {y0 y1 x : Nat} :
    BandFgX b y0 y1 x ↔ ∃ y ∈ List.range' y0 (y1 + 1 - y0), x ∈ rowXs b y := by
  constructor
  · rintro ⟨hx, y, hy0, hy1, hpx⟩
    refine ⟨y, List.mem_range'_1.mpr ⟨hy0, by omega⟩, mem_rowXs.mpr ⟨hx, hpx⟩⟩
  · rintro ⟨y, hy, hx⟩
    obtain ⟨hy0, hylt⟩ := List.mem_range'_1.mp hy
    obtain ⟨hxw, hpx⟩ := mem_rowXs.mp hx
    exact ⟨hxw, y, hy0, by omega, hpx⟩

theorem emitBand_some_iff {b : Image} {y0 y1 : Nat} {bx : Box} :
    emitBand b y0 y1 = some bx ↔ BandEmit b y0 y1 bx := by
  unfold emitBand
  obtain ⟨hbound, hm0, hM0, hmin, hmax⟩ :=
    bandFold_spec b (List.range' y0 (y1 + 1 - y0)) b.width 0
  set p := (List.range' y0 (y1 + 1 - y0)).foldl (bandStep b) (b.width, 0) with hp
  constructor
  · intro h
    by_cases hlt : p.1 < p.2
    · simp only [hlt, if_true, Option.some.injEq] at h
      subst h
      have hp2fg : ∃ y ∈ List.range' y0 (y1 + 1 - y0), p.2 ∈ rowXs b y := by
        rcases hmax with h0 | h0
        · exfalso
          rcases hmin with h1 | h1
          · omega
          · obtain ⟨y, _, hmem⟩ := h1
            have := (mem_rowXs.mp hmem).1
            omega
        · exact h0
      have hp1fg : ∃ y ∈ List.range' y0 (y1 + 1 - y0), p.1 ∈ rowXs b y := by
        rcases hmin with h0 | h0
        · exfalso
          obtain ⟨y, hy, hmem⟩ := hp2fg
          have := (mem_rowXs.mp hmem).1
          omega
        · exact h0
      refine ⟨p.1, p.2, bandFgX_iff_mem.mpr hp1fg, ?_, bandFgX_iff_mem.mpr hp2fg, ?_,
        hlt, rfl⟩
      · intro x hx
        obtain ⟨y, hy, hmem⟩ := bandFgX_iff_mem.mp hx
        exact (hbound y hy x hmem).1
      · intro x hx
        obtain ⟨y, hy, hmem⟩ := bandFgX_iff_mem.mp hx
        exact (hbound y hy x hmem).2
    · simp [hlt] at h
  · rintro ⟨xmin, xmax, hfgmin, hminle, hfgmax, hlemax, hltx, hbx⟩
    obtain ⟨ymin, hymin, hmemmin⟩ := bandFgX_iff_mem.mp hfgmin
    obtain ⟨ymax, hymax, hmemmax⟩ := bandFgX_iff_mem.mp hfgmax
    have h1 : p.1 ≤ xmin := (hbound ymin hymin xmin hmemmin).1
    have h2 : xmax ≤ p.2 := (hbound ymax hymax xmax hmemmax).2
    have h1' : xmin ≤ p.1 := by
      rcases hmin with h0 | ⟨y, hy, hmem⟩
      · have := (mem_rowXs.mp hmemmin).1
        omega
      · exact hminle _ (bandFgX_iff_mem.mpr ⟨y, hy, hmem⟩)
    have h2' : p.2 ≤ xmax := by
      rcases hmax with h0 | ⟨y, hy, hmem⟩
      · omega
      · exact hlemax _ (bandFgX_iff_mem.mpr ⟨y, hy, hmem⟩)
    have he1 : p.1 = xmin := le_antisymm h1 h1'
    have he2 : p.2 = xmax := le_antisymm h2' h2
    have hlt : p.1 < p.2 := by omega
    simp only [hlt, if_true, Option.some.injEq]
    rw [hbx, he1, he2]

theorem mem_emitIfTall_iff {b : Image} {y0 y1 : Nat} {bx : Box} :
    bx ∈ emitIfTall b y0 y1 ↔ 8 ≤ y1 - y0 + 1 ∧ BandEmit b y0 y1 bx := by
  unfold emitIfTall
  by_cases h8 : 8 ≤ y1 - y0 + 1
  · simp only [h8, if_true, true_and]
    cases he : emitBand b y0 y1 with
    | none =>
      simp only [List.mem_nil_iff, false_iff]
      intro hbe
      rw [emitBand_some_iff.mpr hbe] at he
      exact Option.noConfusion he
    | some bx' =>
      simp only [List.mem_singleton]
      constructor
      · rintro rfl
        exact emitBand_some_iff.mp he
      · intro hbe
        have h2 := emitBand_some_iff.mpr hbe
        rw [h2] at he
        exact Option.some.inj he
  · simp [h8]

theorem segGo_mem_iff (b : Image) (t : Nat) (n : Nat) :
    ∀ (y : Nat) (inL : Bool) (y0 : Nat) (acc : List Box) (bx : Box),
      y + n = b.height →
      (inL = true → y0 < y ∧ (∀ r, y0 ≤ r → r < y → t < rowFg b r) ∧
        (y0 = 0 ∨ rowFg b (y0 - 1) ≤ t)) →
      (inL = false → y = 0 ∨ rowFg b (y - 1) ≤ t) →
      (bx ∈ segGo b t (List.range' y n) inL y0 acc ↔
        bx ∈ acc
        ∨ (inL = true ∧ ∃ y1, y ≤ y1 + 1 ∧ OpenTail b t y y1 ∧ bx ∈ emitIfTall b y0 y1)
        ∨ (∃ a y1, y ≤ a ∧ IsLineBand b t a y1 ∧ bx ∈ emitIfTall b a y1)) := by
  induction n with
  | zero =>
    intro y inL y0 acc bx hyn hinv1 hinv2
    simp only [List.range']
    constructor
    · intro h
      exact Or.inl h
    · rintro (h | ⟨_, y1, hy1, ⟨hlt, _, _⟩, _⟩ | ⟨a, y1, hya, ⟨hle, hlt, _, _, _⟩, _⟩)
      · exact h
      · omega
      · omega
  | succ n ih =>
    intro y inL y0 acc bx hyn hinv1 hinv2
    rw [List.range'_succ]
    cases inL with
    | true =>
      obtain ⟨hy0y, hband, hentry⟩ := hinv1 rfl
      by_cases hfg : rowFg b y > t
      · have hstep : segGo b t (y :: List.range' (y + 1) n) true y0 acc
            = segGo b t (List.range' (y + 1) n) true y0 acc := by
          simp [segGo, hfg]
        have hinv1' : (true : Bool) = true → y0 < y + 1 ∧
            (∀ r, y0 ≤ r → r < y + 1 → t < rowFg b r) ∧
            (y0 = 0 ∨ rowFg b (y0 - 1) ≤ t) := by
          intro _
          refine ⟨by omega, ?_, hentry⟩
          intro r hr1 hr2
          by_cases hr : r = y
          · exact hr ▸ hfg
          · exact hband r hr1 (by omega)
        rw [hstep, ih (y + 1) true y0 acc bx (by omega) hinv1' (by simp)]
        constructor
        · rintro (h | ⟨_, y1, hy1, ⟨hH, htail, hclose⟩, hemit⟩ | ⟨a, y1, hya, hb, hemit⟩)
          · exact Or.inl h
          · refine Or.inr (Or.inl ⟨rfl, y1, by omega, ⟨hH, ?_, hclose⟩, hemit⟩)
            intro r hr1 hr2
            by_cases hr : r = y
            · exact hr ▸ hfg
            · exact htail r (by omega) hr2
          · exact Or.inr (Or.inr ⟨a, y1, by omega, hb, hemit⟩)
        · rintro (h | ⟨_, y1, hy1, ⟨hH, htail, hclose⟩, hemit⟩ | ⟨a, y1, hya, hb, hemit⟩)
          · exact Or.inl h
          · have hne : y1 + 1 ≠ y := by
              intro he
              rw [he] at hclose
              omega
            exact Or.inr (Or.inl ⟨rfl, y1, by omega,
              ⟨hH, fun r hr1 hr2 => htail r (by omega) hr2, hclose⟩, hemit⟩)
          · have hay : a ≠ y := by
              intro he
              subst he
              obtain ⟨hle, _, _, _, hent⟩ := hb
              rcases hent with h0 | h0
              · omega
              · have := hband (a - 1) (by omega) (by omega)
                omega
            exact Or.inr (Or.inr ⟨a, y1, by omega, hb, hemit⟩)
      · have hstep : segGo b t (y :: List.range' (y + 1) n) true y0 acc
            = segGo b t (List.range' (y + 1) n) false y0
                (acc ++ emitIfTall b y0 (y - 1)) := by
          simp [segGo, hfg]
        rw [hstep, ih (y + 1) false y0 (acc ++ emitIfTall b y0 (y - 1)) bx (by omega)
          (by simp) (fun _ => Or.inr (by simpa using Nat.le_of_not_lt hfg))]
        simp only [List.mem_append]
        constructor
        · rintro ((h | h) | ⟨habs, _⟩ | ⟨a, y1, hya, hb, hemit⟩)
          · exact Or.inl h
          · refine Or.inr (Or.inl ⟨by simp, y - 1, by omega, ⟨by omega, ?_, ?_⟩, h⟩)
            · intro r hr1 hr2
              exact absurd hr1 (by omega)
            · have he : y - 1 + 1 = y := by omega
              rw [he]
              exact Nat.le_of_not_lt hfg
          · exact absurd habs (by simp)
          · exact Or.inr (Or.inr ⟨a, y1, by omega, hb, hemit⟩)
        · rintro (h | ⟨_, y1, hy1, ⟨hH, htail, hclose⟩, hemit⟩ | ⟨a, y1, hya, hb, hemit⟩)
          · exact Or.inl (Or.inl h)
          · have hy1y : y1 + 1 = y := by
              by_contra hne
              have := htail y (le_refl y) (by omega)
              omega
            have he : y1 = y - 1 := by omega
            subst he
            exact Or.inl (Or.inr hemit)
          · have hay : a ≠ y := by
              intro he
              subst he
              obtain ⟨hle, _, hall, _, _⟩ := hb
              have := hall a (le_refl a) hle
              omega
            exact Or.inr (Or.inr ⟨a, y1, by omega, hb, hemit⟩)
    | false =>
      have hstart := hinv2 rfl
      by_cases hfg : rowFg b y > t
      · have hstep : segGo b t (y :: List.range' (y + 1) n) false y0 acc
            = segGo b t (List.range' (y + 1) n) true y acc := by
          simp [segGo, hfg]
        have hinv1' : (true : Bool) = true → y < y + 1 ∧
            (∀ r, y ≤ r → r < y + 1 → t < rowFg b r) ∧
            (y = 0 ∨ rowFg b (y - 1) ≤ t) := by
          intro _
          refine ⟨by omega, ?_, hstart⟩
          intro r hr1 hr2
          have : r = y := by omega
          exact this ▸ hfg
        rw [hstep, ih (y + 1) true y acc bx (by omega) hinv1' (by simp)]
        constructor
        · rintro (h | ⟨_, y1, hy1, ⟨hH, htail, hclose⟩, hemit⟩ | ⟨a, y1, hya, hb, hemit⟩)
          · exact Or.inl h
          · refine Or.inr (Or.inr ⟨y, y1, le_refl y,
              ⟨by omega, hH, ?_, hclose, hstart⟩, hemit⟩)
            intro r hr1 hr2
            by_cases hr : r = y
            · exact hr ▸ hfg
            · exact htail r (by omega) hr2
          · exact Or.inr (Or.inr ⟨a, y1, by omega, hb, hemit⟩)
        · rintro (h | ⟨habs, _⟩ | ⟨a, y1, hya, hb, hemit⟩)
          · exact Or.inl h
          · exact absurd habs (by simp)
          · by_cases hay : a = y
            · subst hay
              obtain ⟨hle, hH, hall, hclose, _⟩ := hb
              exact Or.inr (Or.inl ⟨rfl, y1, by omega,
                ⟨hH, fun r hr1 hr2 => hall r (by omega) hr2, hclose⟩, hemit⟩)
            · exact Or.inr (Or.inr ⟨a, y1, by omega, hb, hemit⟩)
      · have hstep : segGo b t (y :: List.range' (y + 1) n) false y0 acc
            = segGo b t (List.range' (y + 1) n) false y0 acc := by
          simp [segGo, hfg]
        rw [hstep, ih (y + 1) false y0 acc bx (by omega)
          (by simp) (fun _ => Or.inr (by simpa using Nat.le_of_not_lt hfg))]
        constructor
        · rintro (h | ⟨habs, _⟩ | ⟨a, y1, hya, hb, hemit⟩)
          · exact Or.inl h
          · exact absurd habs (by simp)
          · exact Or.inr (Or.inr ⟨a, y1, by omega, hb, hemit⟩)
        · rintro (h | ⟨habs, _⟩ | ⟨a, y1, hya, hb, hemit⟩)
          · exact Or.inl h
          · exact absurd habs (by simp)
          · have hay : a ≠ y := by
              intro he
              subst he
              obtain ⟨hle, _, hall, _, _⟩ := hb
              have := hall a (le_refl a) hle
              omega
            exact Or.inr (Or.inr ⟨a, y1, by omega, hb, hemit⟩)

theorem mem_segment_lines_iff (v : Vision) (img : Image) (bx : Box) :
    bx ∈ (segment_lines v img).1 ↔
      ¬(img.width = 0 ∨ img.height = 0 ∨ img.channels ≠ 1) ∧
      ∃ y0 y1, IsLineBand (v.otsuInv img) ((v.otsuInv img).width / 20) y0 y1 ∧
        8 ≤ y1 - y0 + 1 ∧ BandEmit (v.otsuInv img) y0 y1 bx := by
  by_cases hbad : img.width = 0 ∨ img.height = 0 ∨ img.channels ≠ 1
  · simp [segment_lines, hbad]
  · simp only [segment_lines, if_neg hbad]
    rw [List.range_eq_range',
      segGo_mem_iff (v.otsuInv img) ((v.otsuInv img).width / 20) (v.otsuInv img).height
        0 false 0 [] bx (by omega) (by simp) (fun _ => Or.inl rfl)]
    constructor
    · rintro (h | ⟨habs, _⟩ | ⟨a, y1, _, hbnd, hemit⟩)
      · exact absurd h (List.not_mem_nil bx)
      · exact absurd habs (by simp)
      · obtain ⟨h8, hbe⟩ := mem_emitIfTall_iff.mp hemit
        exact ⟨hbad, a, y1, hbnd, h8, hbe⟩
    · rintro ⟨_, a, y1, hbnd, h8, hbe⟩
      exact Or.inr (Or.inr ⟨a, y1, Nat.zero_le a, hbnd,
        mem_emitIfTall_iff.mpr ⟨h8, hbe⟩⟩)

theorem foldl_min_le_init {α : Type} (l : List α) (f : α → Nat) (a : Nat) :
    l.foldl (fun m q => min m (f q)) a ≤ a := by
  induction l generalizing a with
  | nil => simp
  | cons q qs ih => exact le_trans (ih (min a (f q))) (min_le_left _ _)

theorem le_foldl_max_init {α : Type} (l : List α) (f : α → Nat) (a : Nat) :
    a ≤ l.foldl (fun m q => max m (f q)) a := by
  induction l generalizing a with
  | nil => simp
  | cons q qs ih => exact le_trans (le_max_left _ _) (ih (max a (f q)))

theorem foldl_min_le_mem {α : Type} {l : List α} (f : α → Nat) (a : Nat) {q : α}
    (hq : q ∈ l) : l.foldl (fun m p => min m (f p)) a ≤ f q := by
  induction l generalizing a with
  | nil => simp at hq
  | cons r rs ih =>
    rcases List.mem_cons.mp hq with h | h
    · subst h
      exact le_trans (foldl_min_le_init rs f _) (min_le_right _ _)
    · exact ih _ h

theorem foldl_max_lt_bound {α : Type} {l : List α} (f : α → Nat) {a c : Nat}
    (ha : a < c) (hl : ∀ q ∈ l, f q < c) :
    l.foldl (fun m q => max m (f q)) a < c := by
  induction l generalizing a with
  | nil => simpa
  | cons r rs ih =>
    simp only [List.foldl_cons]
    exact ih (max_lt ha (hl r (List.mem_cons_self _ _)))
      (fun q hq => hl q (List.mem_cons_of_mem _ hq))

theorem segGo_all_le {b : Image} {t : Nat} (hfg : ∀ y, rowFg b y ≤ t) :
    ∀ (L : List Nat) (y0 : Nat) (acc : List Box), segGo b t L false y0 acc = acc := by
  intro L
  induction L with
  | nil => intro y0 acc; rfl
  | cons y ys ih =>
    intro y0 acc
    have h : ¬ rowFg b y > t := by
      have := hfg y
      omega
    simp [segGo, h, ih]

theorem rowFg_le_width (b : Image) (y : Nat) : rowFg b y ≤ b.width := by
  have := List.length_filter_le (fun x => b.px y x != 0) (List.range b.width)
  simpa [rowFg, rowXs] using this

theorem countNZ_le (b : Image) : countNZ b ≤ b.height * b.width := by
  have h := List.sum_le_card_nsmul ((List.range b.height).map (rowFg b)) b.width ?_
  · simpa [countNZ, smul_eq_mul] using h
  · intro x hx
    obtain ⟨y, _, rfl⟩ := List.mem_map.mp hx
    exact rowFg_le_width b y

/-! ### Claim theorems -/

/-- C2: for every non-empty single-channel image, a box is emitted by
segment_lines exactly when it arises from a complete in-line band of the
top-to-bottom walk — entered exactly when a row's foreground count
exceeds cols/20, exited when the count drops to or below that threshold —
that spans at least 8 rows, with the horizontal extent the min/max
foreground column over the band's rows and a region emitted only when
that extent is positive. -/
theorem c2_segment_lines_spec (v : Vision) (img : Image)
    (hvalid : ¬(img.width = 0 ∨ img.height = 0 ∨ img.channels ≠ 1)) (bx : Box) :
    bx ∈ (segment_lines v img).1 ↔
      ∃ y0 y1, IsLineBand (v.otsuInv img) ((v.otsuInv img).width / 20) y0 y1 ∧
        8 ≤ y1 - y0 + 1 ∧ BandEmit (v.otsuInv img) y0 y1 bx := by
  rw [mem_segment_lines_iff]
  simp [hvalid]

/-- Witness for C2: the characterization applied to a concrete 10×30
image with one 12-row ink band. -/
theorem c2_segment_lines_spec_witness :
    boxBandDemo ∈ (segment_lines vId imgBandDemo).1 ↔
      ∃ y0 y1,
        IsLineBand (vId.otsuInv imgBandDemo) ((vId.otsuInv imgBandDemo).width / 20) y0 y1 ∧
        8 ≤ y1 - y0 + 1 ∧ BandEmit (vId.otsuInv imgBandDemo) y0 y1 boxBandDemo :=
  c2_segment_lines_spec vId imgBandDemo (by decide) boxBandDemo

/-- C10: on a non-empty single-channel image whose rows from `y0` to the
bottom edge all exceed the cols/20 threshold, the band that is still open
when the walk reaches the bottom is discarded: every emitted region ends
at or above `y0`, even though the open band spans at least 8 rows. -/
theorem c10_open_band_discarded (v : Vision) (img : Image) (y0 : Nat)
    (hvalid : ¬(img.width = 0 ∨ img.height = 0 ∨ img.channels ≠ 1))
    (hall : ∀ y, y0 ≤ y → y < (v.otsuInv img).height →
      (v.otsuInv img).width / 20 < rowFg (v.otsuInv img) y)
    (h8 : 8 ≤ (v.otsuInv img).height - y0) :
    ∀ bx ∈ (segment_lines v img).1, bx.y + bx.h ≤ y0 := by
  intro bx hbx
  obtain ⟨_, a, y1, ⟨hle, hH, _, hclose, _⟩, _, xmin, xmax, _, _, _, _, _, hbe⟩ :=
    (mem_segment_lines_iff v img bx).mp hbx
  subst hbe
  simp only
  by_contra hgt
  push_neg at hgt
  have hy1 : y0 ≤ y1 + 1 := by omega
  have := hall (y1 + 1) hy1 hH
  omega

/-- Witness for C10: a 1×10 all-ink image; one band opens at row 0 and
reaches the bottom, so no region extending below row 0 — in particular
not the demo box — is ever emitted. -/
theorem c10_open_band_discarded_witness :
    boxBandDemo ∉ (segment_lines vId imgAllInk).1 :=
  fun h =>
    absurd
      (c10_open_band_discarded vId imgAllInk 0 (by decide)
        (fun _ _ _ => Nat.one_pos) (by decide) boxBandDemo h)
      (by decide)

/-- C8: segment_lines and segment_words signal a usage error (non-empty
message) exactly when the input is empty or not single-channel, returning
an empty region list in that case; a blank (all-background after
binarization) valid image yields an empty region list with the error
message cleared. -/
theorem c8_usage_errors (v : Vision) (img : Image) :
    ((segment_lines v img).2 ≠ "" ↔ (img.width = 0 ∨ img.height = 0 ∨ img.channels ≠ 1)) ∧
    ((segment_words v img).2 ≠ "" ↔ (img.width = 0 ∨ img.height = 0 ∨ img.channels ≠ 1)) ∧
    ((img.width = 0 ∨ img.height = 0 ∨ img.channels ≠ 1) →
      (segment_lines v img).1 = [] ∧ (segment_words v img).1 = []) ∧
    (¬(img.width = 0 ∨ img.height = 0 ∨ img.channels ≠ 1) →
      (∀ y x, (v.otsuInv img).px y x = 0) → segment_lines v img = ([], "")) := by
  by_cases hbad : img.width = 0 ∨ img.height = 0 ∨ img.channels ≠ 1
  · have h1 : segment_lines v img = ([], "Input image must be non-empty and grayscale") := by
      simp [segment_lines, hbad]
    have h2 : segment_words v img = ([], "Input image must be non-empty and grayscale") := by
      simp [segment_words, hbad]
    rw [h1, h2]
    exact ⟨⟨fun _ => hbad, fun _ => by decide⟩, ⟨fun _ => hbad, fun _ => by decide⟩,
      fun _ => ⟨rfl, rfl⟩, fun hv => absurd hbad hv⟩
  · have h1 : (segment_lines v img).2 = "" := by simp [segment_lines, hbad]
    have h2 : (segment_words v img).2 = "" := by simp [segment_words, hbad]
    refine ⟨⟨fun hne => absurd h1 hne, fun hb => absurd hb hbad⟩,
      ⟨fun hne => absurd h2 hne, fun hb => absurd hb hbad⟩,
      fun hb => absurd hb hbad, ?_⟩
    intro _ hblank
    have hfg : ∀ y, rowFg (v.otsuInv img) y ≤ (v.otsuInv img).width / 20 := by
      intro y
      have hnil : rowXs (v.otsuInv img) y = [] := by
        rw [rowXs, List.filter_eq_nil_iff]
        intro a _
        simp [hblank]
      simp [rowFg, hnil]
    simp only [segment_lines, if_neg hbad]
    rw [List.range_eq_range', segGo_all_le hfg]

/-- Witness for C8: a concrete 2×2 blank single-channel image yields the
empty region list and a cleared error message. -/
theorem c8_usage_errors_witness :
    segment_lines vId blankImg = ([], "") :=
  (c8_usage_errors vId blankImg).2.2.2 (by decide) (fun _ _ => rfl)

/-- Bounding-rectangle bounds for a nonempty contour all of whose points
lie in a `W × H` raster. -/
theorem boundingRect_bounds (p : Nat × Nat) (ps : List (Nat × Nat)) (W H : Nat)
    (hall : ∀ q ∈ p :: ps, q.1 < W ∧ q.2 < H) :
    (boundingRect (p :: ps)).x + (boundingRect (p :: ps)).w ≤ W ∧
    (boundingRect (p :: ps)).y + (boundingRect (p :: ps)).h ≤ H := by
  have hmnx : (boundingRect (p :: ps)).x = ps.foldl (fun m q => min m q.1) p.1 := rfl
  have hmny : (boundingRect (p :: ps)).y = ps.foldl (fun m q => min m q.2) p.2 := rfl
  have hw : (boundingRect (p :: ps)).w =
      ps.foldl (fun m q => max m q.1) p.1 - ps.foldl (fun m q => min m q.1) p.1 + 1 := rfl
  have hh : (boundingRect (p :: ps)).h =
      ps.foldl (fun m q => max m q.2) p.2 - ps.foldl (fun m q => min m q.2) p.2 + 1 := rfl
  have h1 : ps.foldl (fun m q => min m q.1) p.1 ≤ p.1 := foldl_min_le_init _ _ _
  have h2 : p.1 ≤ ps.foldl (fun m q => max m q.1) p.1 := le_foldl_max_init _ _ _
  have h3 : ps.foldl (fun m q => max m q.1) p.1 < W :=
    foldl_max_lt_bound _ (hall p (List.mem_cons_self _ _)).1
      (fun q hq => (hall q (List.mem_cons_of_mem _ hq)).1)
  have h4 : ps.foldl (fun m q => min m q.2) p.2 ≤ p.2 := foldl_min_le_init _ _ _
  have h5 : p.2 ≤ ps.foldl (fun m q => max m q.2) p.2 := le_foldl_max_init _ _ _
  have h6 : ps.foldl (fun m q => max m q.2) p.2 < H :=
    foldl_max_lt_bound _ (hall p (List.mem_cons_self _ _)).2
      (fun q hq => (hall q (List.mem_cons_of_mem _ hq)).2)
  omega

/-- C9: every region returned by segment_lines or segment_words on a
non-empty single-channel image satisfies the Region invariant — positive
width and height, non-negative corner, and containment in the image —
assuming the external binarization preserves dimensions and the external
contour points lie inside their raster. -/
theorem c9_region_invariant (v : Vision) (img : Image)
    (hdim : ∀ i, (v.otsuInv i).width = i.width ∧ (v.otsuInv i).height = i.height)
    (hpts : ∀ i, ∀ c ∈ v.findContoursExt i, ∀ p ∈ c, p.1 < i.width ∧ p.2 < i.height) :
    (∀ bx ∈ (segment_lines v img).1, boxInv bx img) ∧
    (∀ bx ∈ (segment_words v img).1, boxInv bx img) := by
  constructor
  · intro bx hbx
    obtain ⟨_, y0, y1, ⟨hle, hH, _, _, _⟩, h8, xmin, xmax, hfgmin, _, hfgmax, _, hlt, hbe⟩ :=
      (mem_segment_lines_iff v img bx).mp hbx
    obtain ⟨hW, hHt⟩ := hdim img
    subst hbe
    have hxm : xmax < img.width := hW ▸ hfgmax.1
    have hyh : y1 + 1 < img.height := hHt ▸ hH
    exact ⟨Nat.succ_pos _, Nat.succ_pos _, Nat.zero_le _, Nat.zero_le _,
      by simp; omega, by simp; omega⟩
  · intro bx hbx
    by_cases hbad : img.width = 0 ∨ img.height = 0 ∨ img.channels ≠ 1
    · simp [segment_words, hbad] at hbx
    · simp only [segment_words, if_neg hbad] at hbx
      obtain ⟨c, hc, heq⟩ := List.mem_filterMap.mp hbx
      by_cases hg : 5 < (boundingRect c).w ∧ 5 < (boundingRect c).h
      · rw [if_pos hg] at heq
        have hbe : boundingRect c = bx := Option.some.inj heq
        subst hbe
        cases c with
        | nil => simp [boundingRect] at hg
        | cons p ps =>
          obtain ⟨hW, hHt⟩ := hdim img
          have hpts' := hpts (v.otsuInv img) (p :: ps) hc
          have hbnd := boundingRect_bounds p ps (v.otsuInv img).width (v.otsuInv img).height hpts'
          rw [hW, hHt] at hbnd
          exact ⟨by omega, by omega, Nat.zero_le _, Nat.zero_le _, hbnd.1, hbnd.2⟩
      · rw [if_neg hg] at heq
        exact absurd heq (by simp)

/-- Witness for C9: the invariant instantiated on the concrete band
image with the identity binarization oracle and the empty contour
oracle. -/
theorem c9_region_invariant_witness :
    (∀ bx ∈ (segment_lines vId imgBandDemo).1, boxInv bx imgBandDemo) ∧
    (∀ bx ∈ (segment_words vId imgBandDemo).1, boxInv bx imgBandDemo) :=
  c9_region_invariant vId imgBandDemo (fun _ => ⟨rfl, rfl⟩)
    (fun _ c hc => absurd hc (List.not_mem_nil c))

/-- C7: every ScoredRegion returned by scored segmentation has confidence
in [0, 1], equal to the foreground count of the re-binarized crop of its
line region divided by the crop's area; and a line-detection error is
propagated with no scored regions, assuming the external binarization
preserves dimensions. -/
theorem c7_scored_confidence (v : Vision) (img : Image)
    (hdim : ∀ i, (v.otsuInv i).width = i.width ∧ (v.otsuInv i).height = i.height) :
    (∀ sb ∈ (segment_with_confidence v img).1,
        0 ≤ sb.confidence ∧ sb.confidence ≤ 1 ∧
        sb.confidence = (countNZ (v.otsuInv (crop img sb.box)) : ℚ) /
          ((sb.box.h * sb.box.w : Nat) : ℚ)) ∧
    ((segment_lines v img).2 ≠ "" →
      segment_with_confidence v img = ([], (segment_lines v img).2)) := by
  constructor
  · intro sb hsb
    by_cases herr : (segment_lines v img).2 ≠ ""
    · simp [segment_with_confidence, herr] at hsb
    · simp only [segment_with_confidence, if_neg herr] at hsb
      obtain ⟨line, hline, rfl⟩ := List.mem_map.mp hsb
      have hW : (v.otsuInv (crop img line)).width = line.w := (hdim (crop img line)).1
      have hH : (v.otsuInv (crop img line)).height = line.h := (hdim (crop img line)).2
      obtain ⟨_, y0, y1, ⟨hle, _, _, _, _⟩, h8, xmin, xmax, _, _, _, _, hlt, hbe⟩ :=
        (mem_segment_lines_iff v img line).mp hline
      have hwpos : 0 < line.w := by rw [hbe]; exact Nat.succ_pos _
      have hhpos : 0 < line.h := by rw [hbe]; exact Nat.succ_pos _
      have hcount : countNZ (v.otsuInv (crop img line)) ≤ line.h * line.w := by
        have := countNZ_le (v.otsuInv (crop img line))
        rw [hW, hH] at this
        exact this
      have hdpos : (0 : ℚ) < ((line.h * line.w : Nat) : ℚ) := by
        have : 0 < line.h * line.w := Nat.mul_pos hhpos hwpos
        exact_mod_cast this
      refine ⟨?_, ?_, ?_⟩
      · exact div_nonneg (by positivity) (le_of_lt (by
          rw [show ((v.otsuInv (crop img line)).height * (v.otsuInv (crop img line)).width
              : Nat) = line.h * line.w from by rw [hW, hH]]
          exact hdpos))
      · show (countNZ (v.otsuInv (crop img line)) : ℚ) /
            (((v.otsuInv (crop img line)).height * (v.otsuInv (crop img line)).width
              : Nat) : ℚ) ≤ 1
        rw [show ((v.otsuInv (crop img line)).height * (v.otsuInv (crop img line)).width
            : Nat) = line.h * line.w from by rw [hW, hH]]
        rw [div_le_one hdpos]
        exact_mod_cast hcount
      · show (countNZ (v.otsuInv (crop img line)) : ℚ) /
            (((v.otsuInv (crop img line)).height * (v.otsuInv (crop img line)).width
              : Nat) : ℚ)
          = (countNZ (v.otsuInv (crop img line)) : ℚ) / ((line.h * line.w : Nat) : ℚ)
        rw [hW, hH]
  · intro herr
    simp [segment_with_confidence, herr]

/-- Witness for C7: the confidence bounds instantiated on the concrete
band image with the identity binarization oracle. -/
theorem c7_scored_confidence_witness :
    (∀ sb ∈ (segment_with_confidence vId imgBandDemo).1,
        0 ≤ sb.confidence ∧ sb.confidence ≤ 1 ∧
        sb.confidence = (countNZ (vId.otsuInv (crop imgBandDemo sb.box)) : ℚ) /
          ((sb.box.h * sb.box.w : Nat) : ℚ)) ∧
    ((segment_lines vId imgBandDemo).2 ≠ "" →
      segment_with_confidence vId imgBandDemo = ([], (segment_lines vId imgBandDemo).2)) :=
  c7_scored_confidence vId imgBandDemo (fun _ => ⟨rfl, rfl⟩)

/-- C3: segment_batch returns a result list and an error list of the same
length as the input, and at every index `i` holds exactly the boxes and
the error that segment_lines produces on input image `i` alone, in input
order; each image's outcome depends only on its own image. -/
theorem c3_segment_batch_pointwise (v : Vision) (imgs : List Image) :
    (segment_batch v imgs).1.length = imgs.length ∧
    (segment_batch v imgs).2.length = imgs.length ∧
    ∀ i : Nat,
      (segment_batch v imgs).1[i]? = (imgs[i]?).map (fun im => (segment_lines v im).1) ∧
      (segment_batch v imgs).2[i]? = (imgs[i]?).map (fun im => (segment_lines v im).2) := by
  refine ⟨by simp [segment_batch], by simp [segment_batch], fun i => ⟨?_, ?_⟩⟩ <;>
    simp [segment_batch, List.getElem?_map]

/-- C1 counterexample: the claim is false for the threshold stage in two
places.  When the primary was declared unavailable at construction, the
OpenCV fallback runs unguarded: on a 1×1 three-channel input its
channel-type assertion raises an exception that propagates to the caller
instead of yielding the input unchanged.  And when the available primary
raises, the exception is caught inside `tesseract_adaptive_threshold`,
which returns the input unchanged — the fallback is never attempted, as
the last two conjuncts show (the stage's result differs from the
fallback's). -/
theorem c1_stage_never_throws_counterexample :
    smart_adaptive_threshold hpNoTess img3
      = Except.error "OpenCV assertion failed: src.type() == CV_8UC1" ∧
    (¬ ∀ (hp : Hybrid) (img : Image),
        Except.isOk (smart_adaptive_threshold hp img) = true) ∧
    smart_adaptive_threshold hpFailPrim img1 = Except.ok img1 ∧
    cv_adaptiveThreshold hpFailPrim.cvThreshG img1
      = Except.ok ⟨0, 0, 1, fun _ _ => 0⟩ := by
  refine ⟨rfl, ?_, rfl, rfl⟩
  intro h
  have h2 := h hpNoTess img3
  rw [show smart_adaptive_threshold hpNoTess img3
      = Except.error "OpenCV assertion failed: src.type() == CV_8UC1" from rfl] at h2
  exact Bool.noConfusion h2

/-- C1 amended: when the primary is available the threshold stage never
propagates — an internal primary failure (Pix conversion failure or a
caught exception) returns the input unchanged without invoking the
fallback; when the primary was declared unavailable at construction the
stage is exactly the unguarded OpenCV fallback, whose failure (a
non-single-channel input) propagates to the caller as an error. -/
theorem c1_threshold_stage_amended (hp : Hybrid) (img : Image) :
    (hp.available = true →
      Except.isOk (smart_adaptive_threshold hp img) = true ∧
      (matToPixFails img ∨ (∃ e, hp.tessThresh img = Except.error e) →
        smart_adaptive_threshold hp img = Except.ok img)) ∧
    (hp.available = false →
      smart_adaptive_threshold hp img = cv_adaptiveThreshold hp.cvThreshG img ∧
      (img.channels ≠ 1 → smart_adaptive_threshold hp img
        = Except.error "OpenCV assertion failed: src.type() == CV_8UC1")) := by
  constructor
  · intro hav
    constructor
    · simp [smart_adaptive_threshold, hav, Except.isOk, Except.toBool]
    · intro hfail
      simp only [smart_adaptive_threshold, hav, if_true]
      rcases hfail with hmx | ⟨e, he⟩
      · simp [tesseract_adaptive_threshold, tess_try, hmx]
      · by_cases hmx : matToPixFails img
        · simp [tesseract_adaptive_threshold, tess_try, hmx]
        · simp [tesseract_adaptive_threshold, tess_try, hmx, he]
  · intro hav
    constructor
    · simp [smart_adaptive_threshold, hav]
    · intro hch
      simp [smart_adaptive_threshold, hav, cv_adaptiveThreshold, hch]

/-- Witness for C1 amended: with the primary available an empty input is
returned unchanged (Pix conversion fails, no fallback); with the primary
unavailable a 1×1 color input makes the stage propagate the fallback's
assertion failure. -/
theorem c1_threshold_stage_amended_witness :
    smart_adaptive_threshold hpAvail imgEmpty = Except.ok imgEmpty ∧
    smart_adaptive_threshold hpNoTess img3
      = Except.error "OpenCV assertion failed: src.type() == CV_8UC1" :=
  ⟨((c1_threshold_stage_amended hpAvail imgEmpty).1 rfl).2 (Or.inl (by decide)),
    ((c1_threshold_stage_amended hpNoTess img3).2 rfl).2 (by decide)⟩

/-- C5: the enhanced pipeline is grayscale-if-needed, then resize, then
exactly the composition of the four hybrid stages in the order Denoise,
Threshold, Deskew, Dewarp. -/
theorem c5_enhanced_pipeline_order (v : Vision) (hp : Hybrid) (img : Image) :
    enhanced_preprocess_image v hp img =
      specStageComposition hp
        (v.resize (if img.channels = 3 then v.bgr2gray img else img)) := by
  unfold enhanced_preprocess_image enhanced_preprocess_pipeline specStageComposition
  cases h1 : smart_denoise hp (v.resize (if img.channels = 3 then v.bgr2gray img else img)) with
  | error e => simp [h1, Except.bind]
  | ok r1 =>
    simp only [h1, Except.bind]
    cases h2 : smart_adaptive_threshold hp r1 with
    | error e => simp [h2, Except.bind]
    | ok r2 => simp only [h2, Except.bind]

/-- C6: on any input whose polygon approximation of the largest external
contour does not have exactly 4 vertices, dewarp is the identity — it
returns the input image, in particular an image identical in size. -/
theorem c6_dewarp_noop (v : Vision) (img : Image)
    (hgray : (grayOf v img).channels = 1)
    (c : List (Nat × Nat)) (cs : List (List (Nat × Nat)))
    (hcont : v.findContoursExt (v.adaptiveMean (grayOf v img)) = c :: cs)
    (h4 : (v.approxPolyDP (largestContour c cs)).length ≠ 4) :
    dewarp v img = Except.ok img ∧
    ∃ out, dewarp v img = Except.ok out ∧
      out.width = img.width ∧ out.height = img.height := by
  have h : dewarp v img = Except.ok img := by
    unfold dewarp
    rw [if_neg (by simp [hgray])]
    rw [hcont]
    simp [h4]
  exact ⟨h, img, h, rfl, rfl⟩

/-- Witness for C6: a concrete oracle finding one single-point contour
whose approximation has 1 vertex; dewarp returns the 1×1 input. -/
theorem c6_dewarp_noop_witness :
    dewarp vC6 img1 = Except.ok img1 ∧
    ∃ out, dewarp vC6 img1 = Except.ok out ∧
      out.width = img1.width ∧ out.height = img1.height :=
  c6_dewarp_noop vC6 img1 (by decide) [(0, 0)] [] rfl (by decide)

/-- C4: on the sample text containing "Invoice Number: INV12345",
"Date: 2023-05-12" and "Total: $1,234.56", the extractor returns
INV12345 for the invoice number and 2023-05-12 for the date, but the
total capture `\d+[.,]\d{2}` stops after two post-separator digits and
yields "1,23", not the claimed "1,234.56" that the code's own test
asserts. -/
theorem c4_extract_fields_eval :
    extract_invoice_fields sampleInvoiceText =
      { invoice_number := some "INV12345", date := some "2023-05-12",
        total := some "1,23" } ∧
    (extract_invoice_fields sampleInvoiceText).total ≠ some "1,234.56" := by
  constructor
  · rfl
  · decide

end Owlin
